import Mathlib

/-
Verification of the output-sanitization core of the voice translation agent
(src/agent.py): the text-cleaning function clean_llm_output, the script
detector is_chinese_text, and the policy wrapper implemented by the
overridden say method of AITranslatorAssistant.

Strings are embedded as List Char (Unicode scalar values). The Python
regular-expression operations are embedded directly: the tag-stripping
substitution as a left-to-right scan, the character-class substitution as a
filter, and str.split / str.join / str.strip as the corresponding list
functions. The Unicode character classes used by the Python runtime
(re \w, re \s, str whitespace) are embedded as explicit code-point ranges
covering the blocks this development reasons about.
-/

set_option maxRecDepth 100000

namespace AgentSpec

/-- Closed code-point range test. -/
def inR (lo hi n : Nat) : Bool := decide (lo ≤ n) && decide (n ≤ hi)

/-- ASCII lowercase folding on code points: the effect of re.IGNORECASE on
the all-ASCII tag patterns of clean_llm_output. -/
def lowerN (n : Nat) : Nat := if 65 ≤ n ∧ n ≤ 90 then n + 32 else n

/-- Whitespace class shared by Python re \s, str.split and str.strip
(Py_UNICODE_ISSPACE): ASCII control whitespace, space, NEL, NBSP, and the
Unicode space separators. -/
def isSpaceChar (c : Char) : Bool :=
  inR 9 13 c.toNat || inR 28 31 c.toNat || decide (c.toNat = 32) ||
  decide (c.toNat = 0x85) || decide (c.toNat = 0xA0) ||
  decide (c.toNat = 0x1680) || inR 0x2000 0x200A c.toNat ||
  decide (c.toNat = 0x2028) || decide (c.toNat = 0x2029) ||
  decide (c.toNat = 0x202F) || decide (c.toNat = 0x205F) ||
  decide (c.toNat = 0x3000)

/-- Unicode alphanumeric class (the alphanumeric part of Python re \w),
embedded over the blocks relevant here: ASCII digits and letters, Latin-1
and Latin Extended letters, Greek, Cyrillic, kana, CJK Unified Ideographs
U+4E00-U+9FFF, and Hangul syllables. Underscore is deliberately NOT in this
class. -/
def isAlnumPy (c : Char) : Bool :=
  inR 48 57 c.toNat || inR 65 90 c.toNat || inR 97 122 c.toNat ||
  inR 0xC0 0xD6 c.toNat || inR 0xD8 0xF6 c.toNat || inR 0xF8 0x24F c.toNat ||
  inR 0x391 0x3A1 c.toNat || inR 0x3A3 0x3C9 c.toNat ||
  inR 0x410 0x44F c.toNat || inR 0x3040 0x30FF c.toNat ||
  inR 0x4E00 0x9FFF c.toNat || inR 0xAC00 0xD7A3 c.toNat

/-- Python regex word class \w: alphanumeric or underscore. The
substitution re.sub(r'[^\w\s]', '', text) keeps exactly the characters
satisfying isWordChar or isSpaceChar. -/
def isWordChar (c : Char) : Bool := isAlnumPy c || c == '_'

/-- The CJK Unified Ideographs range [一-鿿] tested by
is_chinese_text (src/agent.py line 51). -/
def isCJK (c : Char) : Bool := inR 0x4E00 0x9FFF c.toNat

/-- The opening reasoning tag of the pattern r'<think>.*?</think>'. -/
def openTag : List Char := ['<', 't', 'h', 'i', 'n', 'k', '>']

/-- The closing reasoning tag of the pattern r'<think>.*?</think>'. -/
def closeTag : List Char := ['<', '/', 't', 'h', 'i', 'n', 'k', '>']

/-- Case-insensitive prefix match of an ASCII-lowercase pattern against
text (re.IGNORECASE semantics for the ASCII tag patterns). -/
def matchCI : List Char → List Char → Bool
  | [], _ => true
  | _ :: _, [] => false
  | p :: ps, c :: cs => (lowerN c.toNat == p.toNat) && matchCI ps cs

/-- Leftmost case-insensitive occurrence of the closing tag; returns the
suffix after it. This is the non-greedy search that .*?</think> performs
after an opening tag has matched. -/
def findClose : List Char → Option (List Char)
  | [] => none
  | c :: cs =>
    if matchCI closeTag (c :: cs) then some ((c :: cs).drop 8)
    else findClose cs

/-- Left-to-right pass of re.sub(r'<think>.*?</think>', '', text,
flags=re.DOTALL | re.IGNORECASE) (src/agent.py line 36), fuelled so that
the recursion is structural; any fuel at least the length of the list is
beyond reach of the fuel-exhaustion branch. At each position the scan tries
to match an opening tag followed (anywhere later, non-greedily) by a
closing tag; on success the whole span is dropped and scanning resumes
after it, otherwise the character is kept and scanning moves one position
right. -/
def stripThinkF : Nat → List Char → List Char
  | _, [] => []
  | 0, l => l
  | fuel + 1, c :: cs =>
    if matchCI openTag (c :: cs) then
      match findClose ((c :: cs).drop 7) with
      | some r => stripThinkF fuel r
      | none => c :: stripThinkF fuel cs
    else c :: stripThinkF fuel cs

/-- The tag-stripping substitution of src/agent.py line 36. -/
def stripThink (l : List Char) : List Char := stripThinkF l.length l

/-- Python text.split() (src/agent.py line 42): maximal runs of
non-whitespace characters, with empty words never produced. Fuelled for
structural recursion; fuel at least the length of the list suffices. -/
def splitWordsF : Nat → List Char → List (List Char)
  | _, [] => []
  | 0, l => [l]
  | fuel + 1, c :: cs =>
    if isSpaceChar c then splitWordsF fuel cs
    else (c :: cs.takeWhile (fun d => !isSpaceChar d)) ::
      splitWordsF fuel (cs.dropWhile (fun d => !isSpaceChar d))

/-- Python text.split() at adequate fuel. -/
def splitWords (l : List Char) : List (List Char) := splitWordsF l.length l

/-- Python ' '.join(words) (src/agent.py line 42). -/
def joinWords : List (List Char) → List Char
  | [] => []
  | [w] => w
  | w :: ws => w ++ ' ' :: joinWords ws

/-- Python text.strip() (src/agent.py line 44): drop leading and trailing
whitespace. -/
def pyStrip (l : List Char) : List Char :=
  (((l.dropWhile isSpaceChar).reverse).dropWhile isSpaceChar).reverse

/-- re.sub(r'[^\w\s]', '', text) (src/agent.py line 39): delete every
character that is neither a word character nor whitespace. -/
def removePunct (l : List Char) : List Char :=
  l.filter (fun c => isWordChar c || isSpaceChar c)

/-- clean_llm_output (src/agent.py lines 27-44): empty-input guard, tag
stripping, punctuation removal, whitespace collapse, trim. -/
def clean_llm_output (l : List Char) : List Char :=
  if l = [] then []
  else pyStrip (joinWords (splitWords (removePunct (stripThink l))))

/-- is_chinese_text (src/agent.py lines 47-52): the spec's
containsSourceScript. re.search(r'[一-鿿]+', text) succeeds iff
some character lies in the range. -/
def is_chinese_text (l : List Char) : Bool := l.any isCJK

/-- The canonical fallback of say (src/agent.py line 101). -/
def fallbackMsg : List Char := "Sorry I could not translate that".toList

/-- The canonical override of say (src/agent.py line 94). -/
def overrideMsg : List Char :=
  "I apologize but I need to translate that to English".toList

/-- The fixed welcome message sent by on_enter (src/agent.py line 112). -/
def welcomeMsg : List Char :=
  ("Hello I am your Chinese to English translation assistant " ++
   "Please speak in Chinese and I will translate it to English for you").toList

/-- The spec's sanitize: clean_llm_output followed by the empty-result
fallback, as computed in the else branch of AITranslatorAssistant.say
(src/agent.py lines 95-102). -/
def sanitize (l : List Char) : List Char :=
  if clean_llm_output l = [] then fallbackMsg else clean_llm_output l

/-- The spec's validateAndSanitize: the cleaned_message computed by
AITranslatorAssistant.say (src/agent.py lines 85-108) and passed to the
speech synthesizer. -/
def validateAndSanitize (l : List Char) : List Char :=
  if is_chinese_text l then overrideMsg else sanitize l

/-- Python errors that the embedded operations can surface. -/
inductive PyError
  | typeError
deriving DecidableEq

/-- clean_llm_output on an optional (possibly None) input: the guard
`if not text` on src/agent.py line 32 treats None exactly like "". -/
def clean_llm_outputOpt : Option (List Char) → List Char
  | none => []
  | some l => clean_llm_output l

/-- The spec's sanitize on an optional input; total, because
clean_llm_output's falsy guard absorbs None. -/
def sanitizeOpt (t : Option (List Char)) : List Char :=
  if clean_llm_outputOpt t = [] then fallbackMsg else clean_llm_outputOpt t

/-- is_chinese_text on an optional input: CPython's
re.Pattern.search(None) raises TypeError (expected string or bytes-like
object), so the None case is an error, not a value. -/
def is_chinese_textOpt : Option (List Char) → Except PyError Bool
  | none => Except.error PyError.typeError
  | some l => Except.ok (is_chinese_text l)

/-- say's cleaned_message on an optional input: the script check on
src/agent.py line 91 runs before clean_llm_output's falsy guard, so a None
message propagates the TypeError. -/
def validateAndSanitizeOpt (t : Option (List Char)) :
    Except PyError (List Char) := do
  let b ← is_chinese_textOpt t
  if b then pure overrideMsg else pure (sanitizeOpt t)

/-! ### Character-class facts -/

theorem word_not_space {c : Char} (h : isWordChar c = true) :
    isSpaceChar c = false := by
  rcases Bool.eq_false_or_eq_true (isSpaceChar c) with hs | hs
  · exfalso
    simp only [isWordChar, isAlnumPy, inR, Bool.or_eq_true, Bool.and_eq_true,
      decide_eq_true_eq, beq_iff_eq] at h
    simp only [isSpaceChar, inR, Bool.or_eq_true, Bool.and_eq_true,
      decide_eq_true_eq] at hs
    rcases h with h | h
    · omega
    · subst h
      exact absurd hs (by decide)
  · exact hs

theorem word_lowerN_ne {c : Char} (h : isWordChar c = true) :
    lowerN c.toNat ≠ 60 := by
  simp only [isWordChar, isAlnumPy, inR, Bool.or_eq_true, Bool.and_eq_true,
    decide_eq_true_eq, beq_iff_eq] at h
  rcases h with h | h
  · simp only [lowerN]
    split <;> omega
  · subst h
    decide

theorem space_lowerN_ne {c : Char} (h : isSpaceChar c = true) :
    lowerN c.toNat ≠ 60 := by
  simp only [isSpaceChar, inR, Bool.or_eq_true, Bool.and_eq_true,
    decide_eq_true_eq] at h
  simp only [lowerN]
  split <;> omega

theorem word_ne_of_not_word {c d : Char} (h : isWordChar c = true)
    (hd : isWordChar d = false) : c ≠ d := by
  intro he
  rw [he, hd] at h
  exact Bool.false_ne_true h

theorem alnum_word {c : Char} (h : isAlnumPy c = true) : isWordChar c = true := by
  simp [isWordChar, h]

/-! ### takeWhile / dropWhile helpers -/

theorem takeWhile_all {α : Type} {p : α → Bool} {l : List α}
    (h : ∀ x ∈ l, p x = true) : l.takeWhile p = l :=
  List.takeWhile_eq_self_iff.mpr h

theorem dropWhile_all {α : Type} {p : α → Bool} {l : List α}
    (h : ∀ x ∈ l, p x = true) : l.dropWhile p = [] :=
  List.dropWhile_eq_nil_iff.mpr h

theorem dropWhile_head_false {α : Type} {p : α → Bool} {c : α} {cs : List α}
    (h : p c = false) : (c :: cs).dropWhile p = c :: cs := by
  simp [List.dropWhile_cons, h]

theorem takeWhile_append_stop {α : Type} {p : α → Bool} {xs : List α} {y : α}
    {ys : List α} (hxs : ∀ x ∈ xs, p x = true) (hy : p y = false) :
    (xs ++ y :: ys).takeWhile p = xs := by
  induction xs with
  | nil => simp [List.takeWhile_cons, hy]
  | cons a as ih =>
    have ha : p a = true := hxs a (by simp)
    simp only [List.cons_append, List.takeWhile_cons, ha, if_true]
    rw [ih (fun x hx => hxs x (by simp [hx]))]

theorem dropWhile_append_stop {α : Type} {p : α → Bool} {xs : List α} {y : α}
    {ys : List α} (hxs : ∀ x ∈ xs, p x = true) (hy : p y = false) :
    (xs ++ y :: ys).dropWhile p = y :: ys := by
  induction xs with
  | nil => simp [List.dropWhile_cons, hy]
  | cons a as ih =>
    have ha : p a = true := hxs a (by simp)
    simp only [List.cons_append, List.dropWhile_cons, ha, if_true]
    exact ih (fun x hx => hxs x (by simp [hx]))

theorem mem_takeWhile_pred {α : Type} {p : α → Bool} {l : List α} {c : α}
    (h : c ∈ l.takeWhile p) : p c = true := by
  induction l with
  | nil => simp [List.takeWhile] at h
  | cons a as ih =>
    rw [List.takeWhile_cons] at h
    by_cases ha : p a = true
    · simp [ha] at h
      rcases h with h | h
      · rwa [h]
      · exact ih h
    · simp [ha] at h

/-! ### matchCI and findClose -/

theorem matchCI_append {p x : List Char} (y : List Char)
    (h : matchCI p x = true) : matchCI p (x ++ y) = true := by
  induction p generalizing x with
  | nil => rfl
  | cons q qs ih =>
    cases x with
    | nil => exact absurd h (by simp [matchCI])
    | cons c cs =>
      simp only [matchCI, Bool.and_eq_true] at h
      simp only [List.cons_append, matchCI, Bool.and_eq_true]
      exact ⟨h.1, ih h.2⟩

theorem findClose_length : ∀ {l r : List Char},
    findClose l = some r → r.length < l.length := by
  intro l
  induction l with
  | nil => intro r h; exact absurd h (by simp [findClose])
  | cons c cs ih =>
    intro r h
    rw [findClose] at h
    by_cases hm : matchCI closeTag (c :: cs) = true
    · simp only [hm, if_true, Option.some.injEq] at h
      subst h
      simp only [List.length_drop, List.length_cons]
      omega
    · simp only [hm] at h
      have := ih h
      simp only [List.length_cons]
      omega

theorem findClose_sublist : ∀ {l r : List Char},
    findClose l = some r → r.Sublist l := by
  intro l
  induction l with
  | nil => intro r h; exact absurd h (by simp [findClose])
  | cons c cs ih =>
    intro r h
    rw [findClose] at h
    by_cases hm : matchCI closeTag (c :: cs) = true
    · simp only [hm, if_true, Option.some.injEq] at h
      subst h
      exact List.drop_sublist 8 (c :: cs)
    · simp only [hm] at h
      exact (ih h).trans (List.sublist_cons_self c cs)

/-! ### stripThink lemmas -/

theorem stripThinkF_sublist : ∀ (fuel : Nat) (l : List Char),
    (stripThinkF fuel l).Sublist l := by
  intro fuel
  induction fuel with
  | zero =>
    intro l
    cases l with
    | nil => simp [stripThinkF]
    | cons c cs => simp [stripThinkF]
  | succ f ih =>
    intro l
    cases l with
    | nil => simp [stripThinkF]
    | cons c cs =>
      rw [stripThinkF]
      by_cases hm : matchCI openTag (c :: cs) = true
      · simp only [hm, if_true]
        cases hf : findClose ((c :: cs).drop 7) with
        | none => exact (ih cs).cons₂ c
        | some r =>
          exact ((ih r).trans (findClose_sublist hf)).trans
            (List.drop_sublist 7 (c :: cs))
      · simp only [hm, if_false]
        exact (ih cs).cons₂ c

theorem stripThinkF_irrel : ∀ (f₁ f₂ : Nat) (l : List Char),
    l.length ≤ f₁ → l.length ≤ f₂ → stripThinkF f₁ l = stripThinkF f₂ l := by
  intro f₁
  induction f₁ with
  | zero =>
    intro f₂ l h₁ _
    have : l = [] := by
      cases l with
      | nil => rfl
      | cons c cs => simp at h₁
    subst this
    cases f₂ <;> rfl
  | succ g ih =>
    intro f₂ l h₁ h₂
    cases l with
    | nil => cases f₂ <;> rfl
    | cons c cs =>
      cases f₂ with
      | zero => simp at h₂
      | succ g₂ =>
        have hcs : cs.length ≤ g := by simpa using h₁
        have hcs₂ : cs.length ≤ g₂ := by simpa using h₂
        rw [stripThinkF, stripThinkF]
        by_cases hm : matchCI openTag (c :: cs) = true
        · rw [if_pos hm, if_pos hm]
          cases hf : findClose ((c :: cs).drop 7) with
          | none => rw [ih g₂ cs hcs hcs₂]
          | some r =>
            have hr : r.length < ((c :: cs).drop 7).length :=
              findClose_length hf
            have hrlen : r.length ≤ g ∧ r.length ≤ g₂ := by
              simp only [List.length_drop, List.length_cons] at hr
              omega
            show stripThinkF g r = stripThinkF g₂ r
            exact ih g₂ r hrlen.1 hrlen.2
        · rw [if_neg hm, if_neg hm, ih g₂ cs hcs hcs₂]

theorem stripThinkF_id : ∀ (fuel : Nat) (l : List Char),
    (∀ c ∈ l, lowerN c.toNat ≠ 60) → stripThinkF fuel l = l := by
  intro fuel
  induction fuel with
  | zero =>
    intro l _
    cases l with
    | nil => rfl
    | cons c cs => rfl
  | succ f ih =>
    intro l h
    cases l with
    | nil => rfl
    | cons c cs =>
      have hm : matchCI openTag (c :: cs) = false := by
        simp only [openTag, matchCI]
        simp only [Bool.and_eq_false_iff, beq_eq_false_iff_ne]
        left
        exact fun h60 => absurd h60 (by simpa using h c (by simp))
      rw [stripThinkF, if_neg (by simp [hm]),
        ih cs (fun d hd => h d (by simp [hd]))]

/-! ### splitWords, joinWords and pyStrip lemmas -/

/-- Shape of Python text.split() output: every word nonempty and free of
whitespace. -/
def GoodSplit (ws : List (List Char)) : Prop :=
  ∀ w ∈ ws, w ≠ [] ∧ ∀ c ∈ w, isSpaceChar c = false

theorem splitWordsF_words : ∀ (fuel : Nat) (l : List Char),
    l.length ≤ fuel → ∀ w ∈ splitWordsF fuel l,
    w ≠ [] ∧ ∀ c ∈ w, isSpaceChar c = false ∧ c ∈ l := by
  intro fuel
  induction fuel with
  | zero =>
    intro l hl w hw
    cases l with
    | nil => simp [splitWordsF] at hw
    | cons c cs => simp at hl
  | succ f ih =>
    intro l hl w hw
    cases l with
    | nil => simp [splitWordsF] at hw
    | cons c cs =>
      have hcs : cs.length ≤ f := by simpa using hl
      rw [splitWordsF] at hw
      by_cases hsp : isSpaceChar c = true
      · rw [if_pos hsp] at hw
        obtain ⟨hne, hmem⟩ := ih cs hcs w hw
        exact ⟨hne, fun d hd => ⟨(hmem d hd).1, by simp [(hmem d hd).2]⟩⟩
      · rw [if_neg hsp] at hw
        rcases List.mem_cons.mp hw with hw | hw
        · subst hw
          refine ⟨by simp, fun d hd => ?_⟩
          rcases List.mem_cons.mp hd with hd | hd
          · subst hd
            exact ⟨Bool.of_not_eq_true hsp, by simp⟩
          · have hpred := mem_takeWhile_pred hd
            have hmem : d ∈ cs :=
              (List.takeWhile_sublist _).mem hd
            exact ⟨by simpa using hpred, by simp [hmem]⟩
        · have hdrop : (cs.dropWhile (fun d => !isSpaceChar d)).length ≤ f :=
            le_trans (List.dropWhile_sublist _).length_le hcs
          obtain ⟨hne, hmem⟩ := ih _ hdrop w hw
          refine ⟨hne, fun d hd => ⟨(hmem d hd).1, ?_⟩⟩
          have : d ∈ cs := (List.dropWhile_sublist _).mem (hmem d hd).2
          simp [this]

theorem joinWords_cons (w : List Char) (ws : List (List Char)) (hws : ws ≠ []) :
    joinWords (w :: ws) = w ++ ' ' :: joinWords ws := by
  cases ws with
  | nil => exact absurd rfl hws
  | cons v vs => rfl

theorem mem_joinWords : ∀ {ws : List (List Char)} {c : Char},
    c ∈ joinWords ws → (∃ w ∈ ws, c ∈ w) ∨ c = ' ' := by
  intro ws
  induction ws with
  | nil => intro c hc; simp [joinWords] at hc
  | cons w vs ih =>
    intro c hc
    cases vs with
    | nil =>
      left
      exact ⟨w, by simp, hc⟩
    | cons v vs' =>
      rw [joinWords_cons w (v :: vs') (by simp)] at hc
      rcases List.mem_append.mp hc with hc | hc
      · exact Or.inl ⟨w, by simp, hc⟩
      · rcases List.mem_cons.mp hc with hc | hc
        · exact Or.inr hc
        · rcases ih hc with ⟨u, hu, hcu⟩ | hc
          · exact Or.inl ⟨u, by simp [hu], hcu⟩
          · exact Or.inr hc

theorem joinWords_split : ∀ (ws : List (List Char)), GoodSplit ws →
    ∀ (fuel : Nat), (joinWords ws).length ≤ fuel →
    splitWordsF fuel (joinWords ws) = ws := by
  intro ws
  induction ws with
  | nil =>
    intro _ fuel _
    cases fuel <;> rfl
  | cons w vs ih =>
    intro hgood fuel hfuel
    obtain ⟨hwne, hwns⟩ := hgood w (by simp)
    obtain ⟨c, cs, rfl⟩ := List.exists_cons_of_ne_nil hwne
    have hcns : isSpaceChar c = false := hwns c (by simp)
    have hcsns : ∀ d ∈ cs, (fun d => !isSpaceChar d) d = true := by
      intro d hd
      simp [hwns d (by simp [hd])]
    cases vs with
    | nil =>
      simp only [joinWords] at hfuel ⊢
      cases fuel with
      | zero => simp at hfuel
      | succ f =>
        rw [splitWordsF, if_neg (by simp [hcns])]
        rw [takeWhile_all hcsns, dropWhile_all hcsns]
        have : splitWordsF f ([] : List Char) = [] := by cases f <;> rfl
        rw [this]
    | cons v vs' =>
      rw [joinWords_cons _ _ (by simp)] at hfuel ⊢
      cases fuel with
      | zero => simp at hfuel
      | succ f =>
        rw [List.cons_append, splitWordsF, if_neg (by simp [hcns])]
        have hsp : (fun d => !isSpaceChar d) ' ' = false := by decide
        rw [takeWhile_append_stop hcsns hsp, dropWhile_append_stop hcsns hsp]
        have hflen : (' ' :: joinWords (v :: vs')).length ≤ f := by
          simp only [List.cons_append, List.length_cons, List.length_append] at hfuel
          simp only [List.length_cons]
          omega
        cases f with
        | zero => simp at hflen
        | succ f' =>
          rw [splitWordsF, if_pos (by decide)]
          have := ih (fun u hu => hgood u (by simp [hu])) f'
            (by simpa using hflen)
          rw [this]

theorem joinWords_ends : ∀ (ws : List (List Char)), ws ≠ [] → GoodSplit ws →
    ∃ xs cend, joinWords ws = xs ++ [cend] ∧ isSpaceChar cend = false := by
  intro ws
  induction ws with
  | nil => intro h; exact absurd rfl h
  | cons w vs ih =>
    intro _ hgood
    obtain ⟨hwne, hwns⟩ := hgood w (by simp)
    cases vs with
    | nil =>
      rcases List.eq_nil_or_concat w with hw | ⟨xs, cend, hw⟩
      · exact absurd hw hwne
      · rw [List.concat_eq_append] at hw
        refine ⟨xs, cend, hw, hwns cend (by simp [hw])⟩
    | cons v vs' =>
      obtain ⟨xs, cend, hjoin, hcend⟩ :=
        ih (by simp) (fun u hu => hgood u (by simp [hu]))
      refine ⟨w ++ ' ' :: xs, cend, ?_, hcend⟩
      rw [joinWords_cons _ _ (by simp), hjoin]
      simp

theorem joinWords_head : ∀ (c : Char) (cs : List Char)
    (vs : List (List Char)), ∃ t, joinWords ((c :: cs) :: vs) = c :: t := by
  intro c cs vs
  cases vs with
  | nil => exact ⟨cs, rfl⟩
  | cons v vs' => exact ⟨cs ++ ' ' :: joinWords (v :: vs'), rfl⟩

theorem pyStrip_joinWords (ws : List (List Char)) (hgood : GoodSplit ws) :
    pyStrip (joinWords ws) = joinWords ws := by
  cases ws with
  | nil => rfl
  | cons w vs =>
    obtain ⟨hwne, hwns⟩ := hgood w (by simp)
    obtain ⟨c, cs, rfl⟩ := List.exists_cons_of_ne_nil hwne
    obtain ⟨t, ht⟩ := joinWords_head c cs vs
    obtain ⟨xs, cend, hends, hcend⟩ :=
      joinWords_ends ((c :: cs) :: vs) (by simp) hgood
    have hcns : isSpaceChar c = false := hwns c (by simp)
    rw [pyStrip, ht, dropWhile_head_false hcns, ← ht, hends,
      List.reverse_concat, dropWhile_head_false hcend]
    simp

theorem mem_pyStrip {l : List Char} {c : Char} (h : c ∈ pyStrip l) : c ∈ l := by
  rw [pyStrip, List.mem_reverse] at h
  have h₂ := (List.dropWhile_sublist _).mem h
  rw [List.mem_reverse] at h₂
  exact (List.dropWhile_sublist _).mem h₂

/-! ### Structure of clean_llm_output results -/

theorem clean_eq_join (l : List Char) : ∃ ws, GoodSplit ws ∧
    (∀ w ∈ ws, ∀ c ∈ w, isWordChar c = true ∧ c ∈ l) ∧
    clean_llm_output l = joinWords ws := by
  by_cases hl : l = []
  · subst hl
    refine ⟨[], ?_, by simp, by simp [clean_llm_output, joinWords]⟩
    intro w hw
    simp at hw
  · have hwords := splitWordsF_words (removePunct (stripThink l)).length
      (removePunct (stripThink l)) le_rfl
    have hgood : GoodSplit (splitWords (removePunct (stripThink l))) := by
      intro w hw
      exact ⟨(hwords w hw).1, fun c hc => ((hwords w hw).2 c hc).1⟩
    refine ⟨splitWords (removePunct (stripThink l)), hgood, ?_, ?_⟩
    · intro w hw c hc
      obtain ⟨hns, hmx⟩ := (hwords w hw).2 c hc
      obtain ⟨hst, hpred⟩ := List.mem_filter.mp hmx
      constructor
      · rcases Bool.or_eq_true _ _ |>.mp hpred with hword | hsp
        · exact hword
        · rw [hns] at hsp
          exact absurd hsp Bool.false_ne_true
      · exact (stripThinkF_sublist l.length l).mem hst
    · rw [clean_llm_output, if_neg hl]
      exact pyStrip_joinWords _ hgood

theorem clean_fixed (ws : List (List Char)) (hgood : GoodSplit ws)
    (hword : ∀ w ∈ ws, ∀ c ∈ w, isWordChar c = true) :
    clean_llm_output (joinWords ws) = joinWords ws := by
  cases ws with
  | nil => rfl
  | cons w vs =>
    obtain ⟨hwne, _⟩ := hgood w (by simp)
    obtain ⟨c, cs, rfl⟩ := List.exists_cons_of_ne_nil hwne
    obtain ⟨t, ht⟩ := joinWords_head c cs vs
    have hmem : ∀ d ∈ joinWords ((c :: cs) :: vs),
        isWordChar d = true ∨ d = ' ' := by
      intro d hd
      rcases mem_joinWords hd with ⟨u, hu, hdu⟩ | hd
      · exact Or.inl (hword u hu d hdu)
      · exact Or.inr hd
    have hne : joinWords ((c :: cs) :: vs) ≠ [] := by
      rw [ht]; simp
    rw [clean_llm_output, if_neg hne]
    have hstrip : stripThink (joinWords ((c :: cs) :: vs)) =
        joinWords ((c :: cs) :: vs) := by
      rw [stripThink]
      apply stripThinkF_id
      intro d hd
      rcases hmem d hd with hw | hsp
      · exact word_lowerN_ne hw
      · subst hsp; decide
    have hfilter : removePunct (joinWords ((c :: cs) :: vs)) =
        joinWords ((c :: cs) :: vs) := by
      apply List.filter_eq_self.mpr
      intro d hd
      rcases hmem d hd with hw | hsp
      · simp [hw]
      · subst hsp; decide
    rw [hstrip, hfilter, splitWords,
      joinWords_split _ hgood _ le_rfl, pyStrip_joinWords _ hgood]

theorem clean_idem (l : List Char) :
    clean_llm_output (clean_llm_output l) = clean_llm_output l := by
  obtain ⟨ws, hgood, hchars, hclean⟩ := clean_eq_join l
  rw [hclean]
  exact clean_fixed ws hgood (fun w hw c hc => (hchars w hw c hc).1)

theorem clean_chars {l : List Char} {c : Char}
    (h : c ∈ clean_llm_output l) :
    (isWordChar c = true ∧ c ∈ l) ∨ c = ' ' := by
  obtain ⟨ws, _, hchars, hclean⟩ := clean_eq_join l
  rw [hclean] at h
  rcases mem_joinWords h with ⟨w, hw, hcw⟩ | hsp
  · exact Or.inl (hchars w hw c hcw)
  · exact Or.inr hsp

/-! ### Concrete fixed points and simple sanitize facts -/

theorem clean_fallback : clean_llm_output fallbackMsg = fallbackMsg := by decide

theorem clean_override : clean_llm_output overrideMsg = overrideMsg := by decide

theorem clean_welcome : clean_llm_output welcomeMsg = welcomeMsg := by decide

theorem fallback_ne_nil : fallbackMsg ≠ [] := by decide

theorem sanitize_pos (l : List Char) : 0 < (sanitize l).length := by
  rw [sanitize]
  by_cases h : clean_llm_output l = []
  · rw [if_pos h]; decide
  · rw [if_neg h]
    exact List.length_pos.mpr h

theorem sanitize_idem_aux (l : List Char) : sanitize (sanitize l) = sanitize l := by
  by_cases h : clean_llm_output l = []
  · have h1 : sanitize l = fallbackMsg := by rw [sanitize, if_pos h]
    rw [h1, sanitize, clean_fallback, if_neg fallback_ne_nil]
  · have h1 : sanitize l = clean_llm_output l := by rw [sanitize, if_neg h]
    rw [h1, sanitize, clean_idem, if_neg h]

/-! ### Leftmost-match removal behaviour of stripThink -/

theorem findClose_exact : ∀ (b : List Char) (cl c : List Char),
    matchCI closeTag cl = true → cl.length = 8 →
    (∀ i < b.length, matchCI closeTag ((b ++ (cl ++ c)).drop i) = false) →
    findClose (b ++ (cl ++ c)) = some c := by
  intro b
  induction b with
  | nil =>
    intro cl c hcl hcl8 _
    obtain ⟨d, ds, rfl⟩ : ∃ d ds, cl = d :: ds := by
      cases cl with
      | nil => simp at hcl8
      | cons d ds => exact ⟨d, ds, rfl⟩
    have hmatch : matchCI closeTag ((d :: ds) ++ c) = true := matchCI_append c hcl
    rw [List.nil_append, List.cons_append, findClose,
      if_pos (by rwa [List.cons_append] at hmatch), ← List.cons_append,
      List.drop_left' hcl8]
  | cons x xs ih =>
    intro cl c hcl hcl8 hb
    have hx : matchCI closeTag (x :: (xs ++ (cl ++ c))) = false := by
      have := hb 0 (by simp)
      rw [List.cons_append] at this
      simpa using this
    rw [List.cons_append, findClose, if_neg (by simp [hx])]
    apply ih cl c hcl hcl8
    intro i hi
    have := hb (i + 1) (by simp only [List.length_cons]; omega)
    rwa [List.cons_append, List.drop_succ_cons] at this

theorem stripThinkF_removes : ∀ (a : List Char) (fuel : Nat)
    (o b cl c : List Char),
    matchCI openTag o = true → o.length = 7 →
    matchCI closeTag cl = true → cl.length = 8 →
    (∀ i < a.length,
      matchCI openTag ((a ++ (o ++ (b ++ (cl ++ c)))).drop i) = false) →
    (∀ i < b.length, matchCI closeTag ((b ++ (cl ++ c)).drop i) = false) →
    (a ++ (o ++ (b ++ (cl ++ c)))).length ≤ fuel →
    stripThinkF fuel (a ++ (o ++ (b ++ (cl ++ c)))) = a ++ stripThink c := by
  intro a
  induction a with
  | nil =>
    intro fuel o b cl c ho ho7 hcl hcl8 _ hb hfuel
    obtain ⟨d, ds, rfl⟩ : ∃ d ds, o = d :: ds := by
      cases o with
      | nil => simp at ho7
      | cons d ds => exact ⟨d, ds, rfl⟩
    rw [List.nil_append] at hfuel ⊢
    rw [List.cons_append] at hfuel ⊢
    cases fuel with
    | zero => simp at hfuel
    | succ f =>
      have hmatch : matchCI openTag
          (d :: (ds ++ (b ++ (cl ++ c)))) = true := by
        have := matchCI_append (b ++ (cl ++ c)) ho
        rwa [List.cons_append] at this
      have hdrop : (d :: (ds ++ (b ++ (cl ++ c)))).drop 7 = b ++ (cl ++ c) := by
        rw [← List.cons_append, List.drop_left' ho7]
      rw [stripThinkF, if_pos hmatch, hdrop, findClose_exact b cl c hcl hcl8 hb]
      show stripThinkF f c = stripThink c
      apply stripThinkF_irrel
      · simp only [List.length_cons, List.length_append] at hfuel
        omega
      · exact le_rfl
  | cons x xs ih =>
    intro fuel o b cl c ho ho7 hcl hcl8 ha hb hfuel
    rw [List.cons_append] at hfuel ⊢
    cases fuel with
    | zero => simp at hfuel
    | succ f =>
      have hx : matchCI openTag (x :: (xs ++ (o ++ (b ++ (cl ++ c))))) = false := by
        have := ha 0 (by simp)
        rw [List.cons_append] at this
        simpa using this
      have ha' : ∀ i < xs.length,
          matchCI openTag ((xs ++ (o ++ (b ++ (cl ++ c)))).drop i) = false := by
        intro i hi
        have := ha (i + 1) (by simp only [List.length_cons]; omega)
        rwa [List.cons_append, List.drop_succ_cons] at this
      rw [stripThinkF, if_neg (by simp [hx]), List.cons_append,
        ih f o b cl c ho ho7 hcl hcl8 ha' hb (by simpa using hfuel)]

theorem joinWords_ne_nil (ws : List (List Char)) (hne : ws ≠ [])
    (h : ∀ w ∈ ws, w ≠ []) : joinWords ws ≠ [] := by
  cases ws with
  | nil => exact absurd rfl hne
  | cons w vs =>
    obtain ⟨c, cs, rfl⟩ := List.exists_cons_of_ne_nil (h w (by simp))
    obtain ⟨t, ht⟩ := joinWords_head c cs vs
    rw [ht]
    simp

theorem sanitize_no_markup (l : List Char) :
    (sanitize l).all (fun c => !(c == '<') && !(c == '>')) = true := by
  rw [sanitize]
  by_cases h : clean_llm_output l = []
  · rw [if_pos h]; decide
  · rw [if_neg h]
    apply List.all_eq_true.mpr
    intro c hc
    rcases clean_chars hc with ⟨hword, _⟩ | hsp
    · have h1 : c ≠ '<' := word_ne_of_not_word hword (by decide)
      have h2 : c ≠ '>' := word_ne_of_not_word hword (by decide)
      simp [beq_eq_false_iff_ne.mpr h1, beq_eq_false_iff_ne.mpr h2]
    · subst hsp; decide

theorem validateAndSanitize_pos (l : List Char) :
    0 < (validateAndSanitize l).length := by
  rw [validateAndSanitize]
  by_cases h : is_chinese_text l = true
  · rw [if_pos h]; decide
  · rw [if_neg h]; exact sanitize_pos l

theorem validateAndSanitize_no_cjk (l : List Char) :
    (validateAndSanitize l).all (fun c => !isCJK c) = true := by
  rw [validateAndSanitize]
  by_cases h : is_chinese_text l = true
  · rw [if_pos h]; decide
  · rw [if_neg h, sanitize]
    by_cases hc : clean_llm_output l = []
    · rw [if_pos hc]; decide
    · rw [if_neg hc]
      apply List.all_eq_true.mpr
      intro c hcm
      have hzh : is_chinese_text l = false := Bool.of_not_eq_true h
      rcases clean_chars hcm with ⟨_, hin⟩ | hsp
      · have := List.any_eq_false.mp hzh c hin
        simp [Bool.of_not_eq_true this]
      · subst hsp; decide

/-! ## Claims -/

/-- Claim C1: every input containing at least one character in
U+4E00-U+9FFF makes the overridden say method return exactly the canonical
override string, bypassing the cleaning pipeline entirely. -/
theorem claim_C1 (l : List Char)
    (h : ∃ c ∈ l, 0x4E00 ≤ c.toNat ∧ c.toNat ≤ 0x9FFF) :
    validateAndSanitize l = overrideMsg := by
  obtain ⟨c, hc, hlo, hhi⟩ := h
  have hzh : is_chinese_text l = true :=
    List.any_eq_true.mpr ⟨c, hc, by simp [isCJK, inR]; exact ⟨hlo, hhi⟩⟩
  rw [validateAndSanitize, if_pos hzh]

theorem claim_C1_witness :
    validateAndSanitize ("你好 Hello".toList) = overrideMsg :=
  claim_C1 _ (by decide)

/-- Claim C2: sanitize always returns a non-empty string; on the empty and
the absent (None) input it returns the canonical fallback, and the fallback
is returned whenever the cleaning steps leave the text empty. -/
theorem claim_C2 :
    (∀ l : List Char, 0 < (sanitize l).length) ∧
    sanitize [] = fallbackMsg ∧
    sanitizeOpt none = fallbackMsg ∧
    (∀ l : List Char, clean_llm_output l = [] → sanitize l = fallbackMsg) :=
  ⟨sanitize_pos, by decide, by decide,
    fun _ h => by rw [sanitize, if_pos h]⟩

theorem claim_C2_witness :
    sanitize ['!'] = fallbackMsg ∧ 0 < (sanitize ['!']).length :=
  ⟨claim_C2.2.2.2 ['!'] (by decide), claim_C2.1 ['!']⟩

/-- Claim C3 counterexample: sanitize alone does not remove source-script
characters: on the input 你好 it returns 你好, which contains characters in
U+4E00-U+9FFF, so not every value returned by sanitize is free of the
source script. -/
theorem claim_C3_counterexample :
    '你' ∈ sanitize ("你好".toList) ∧
    0x4E00 ≤ ('你').toNat ∧ ('你').toNat ≤ 0x9FFF := by decide

/-- Claim C3 amended: the value handed to speech synthesis by
validateAndSanitize is never empty, never contains a character in
U+4E00-U+9FFF, and never contains the markup characters < or >; the value
returned by sanitize alone is never empty and never contains < or >, but
may retain source-script characters (the script check lives only in
validateAndSanitize). -/
theorem claim_C3_amended (l : List Char) :
    0 < (validateAndSanitize l).length ∧
    (validateAndSanitize l).all (fun c => !isCJK c) = true ∧
    (validateAndSanitize l).all (fun c => !(c == '<') && !(c == '>')) = true ∧
    0 < (sanitize l).length ∧
    (sanitize l).all (fun c => !(c == '<') && !(c == '>')) = true := by
  refine ⟨validateAndSanitize_pos l, validateAndSanitize_no_cjk l, ?_,
    sanitize_pos l, sanitize_no_markup l⟩
  rw [validateAndSanitize]
  by_cases h : is_chinese_text l = true
  · rw [if_pos h]; decide
  · rw [if_neg h]; exact sanitize_no_markup l

/-- Claim C4 counterexample: validateAndSanitize applied to the absent
(None) input does not terminate normally: the script check
re.search(None) raises TypeError before any guard runs. -/
theorem claim_C4_counterexample :
    validateAndSanitizeOpt none = Except.error PyError.typeError := rfl

/-- Claim C4 amended: sanitize never raises and returns a non-empty string
for every input including None and the empty string; validateAndSanitize
never raises and returns a non-empty string for every string input
including the empty string, but on None it raises TypeError because the
script check runs before the falsy-input guard of clean_llm_output. -/
theorem claim_C4_amended :
    (∀ t : Option (List Char), 0 < (sanitizeOpt t).length) ∧
    (∀ l : List Char,
      validateAndSanitizeOpt (some l) = Except.ok (validateAndSanitize l) ∧
      0 < (validateAndSanitize l).length) := by
  constructor
  · intro t
    cases t with
    | none => decide
    | some l => exact sanitize_pos l
  · intro l
    refine ⟨?_, validateAndSanitize_pos l⟩
    by_cases h : is_chinese_text l = true <;>
      simp [validateAndSanitizeOpt, is_chinese_textOpt, validateAndSanitize,
        sanitizeOpt, sanitize, clean_llm_outputOpt, h, Bind.bind, Except.bind,
        pure, Except.pure]

/-- Claim C5: the spec's sanitize is idempotent. -/
theorem claim_C5 (l : List Char) : sanitize (sanitize l) = sanitize l :=
  sanitize_idem_aux l

/-- Claim C6 counterexample: the underscore is neither alphanumeric nor
whitespace, yet step 3 of sanitize keeps it (Python \w includes the
underscore), so step 3 does not remove every non-alphanumeric
non-whitespace character. -/
theorem claim_C6_counterexample :
    removePunct ['_'] = ['_'] ∧ sanitize ['_'] = ['_'] ∧
    isAlnumPy '_' = false ∧ isSpaceChar '_' = false := by decide

/-- Claim C6 amended: step 3 of sanitize removes every character that is
neither a word character (alphanumeric or underscore) nor whitespace; in
particular sanitize applied to Hello, world!! returns Hello world. -/
theorem claim_C6_amended :
    (∀ l : List Char, removePunct l =
      l.filter (fun c => isAlnumPy c || (c == '_' || isSpaceChar c))) ∧
    sanitize ("Hello, world!!".toList) = "Hello world".toList := by
  constructor
  · intro l
    rw [removePunct]
    congr 1
    funext c
    rw [isWordChar, Bool.or_assoc]
  · decide

/-- Claim C7: step 2 of sanitize removes each leftmost case-insensitive
opening reasoning tag together with the span up to the nearest following
closing tag (content may span newlines), and scanning continues after the
removed span; in particular the markup example sanitizes to Hello world. -/
theorem claim_C7 :
    (∀ a o b cl c : List Char,
      matchCI openTag o = true → o.length = 7 →
      matchCI closeTag cl = true → cl.length = 8 →
      (∀ i < a.length,
        matchCI openTag ((a ++ (o ++ (b ++ (cl ++ c)))).drop i) = false) →
      (∀ i < b.length, matchCI closeTag ((b ++ (cl ++ c)).drop i) = false) →
      stripThink (a ++ (o ++ (b ++ (cl ++ c)))) = a ++ stripThink c) ∧
    sanitize ("<think>reasoning here</think>Hello world".toList) =
      "Hello world".toList := by
  constructor
  · intro a o b cl c ho ho7 hcl hcl8 ha hb
    rw [stripThink]
    exact stripThinkF_removes a _ o b cl c ho ho7 hcl hcl8 ha hb le_rfl
  · decide

theorem claim_C7_witness :
    stripThink ("x".toList ++ ("<THINK>".toList ++ ("reasoning\nhere".toList ++
      ("</think>".toList ++ "Hello".toList)))) =
    "x".toList ++ stripThink ("Hello".toList) :=
  claim_C7.1 "x".toList "<THINK>".toList "reasoning\nhere".toList
    "</think>".toList "Hello".toList (by decide) (by decide) (by decide)
    (by decide) (by decide) (by decide)

/-- Claim C8: is_chinese_text (the spec's containsSourceScript) returns
true iff some character lies in U+4E00-U+9FFF, and behaves as stated on
你好, Hello and the empty string. -/
theorem claim_C8 :
    (∀ l : List Char, is_chinese_text l = true ↔
      ∃ c ∈ l, 0x4E00 ≤ c.toNat ∧ c.toNat ≤ 0x9FFF) ∧
    is_chinese_text ("你好".toList) = true ∧
    is_chinese_text ("Hello".toList) = false ∧
    is_chinese_text [] = false := by
  refine ⟨fun l => ?_, by decide, by decide, by decide⟩
  rw [is_chinese_text, List.any_eq_true]
  constructor
  · rintro ⟨c, hc, hcjk⟩
    refine ⟨c, hc, ?_⟩
    simpa [isCJK, inR] using hcjk
  · rintro ⟨c, hc, h1, h2⟩
    exact ⟨c, hc, by simp [isCJK, inR]; exact ⟨h1, h2⟩⟩

theorem claim_C8_witness : is_chinese_text ("你好 ok".toList) = true :=
  (claim_C8.1 _).mpr ⟨'你', by decide, by decide, by decide⟩

/-- Claim C9: sanitize collapses whitespace runs to single spaces and
trims; on a non-empty string of single-space-joined, purely alphanumeric
words it is the identity, and on any string free of markup and punctuation
it equals the collapse-and-trim of that string; in particular
Hello(4 spaces)world(2 spaces) sanitizes to Hello world. -/
theorem claim_C9 :
    (∀ ws : List (List Char), ws ≠ [] →
      (∀ w ∈ ws, w ≠ [] ∧ ∀ c ∈ w, isAlnumPy c = true) →
      sanitize (joinWords ws) = joinWords ws) ∧
    (∀ l : List Char, (∀ c ∈ l, isAlnumPy c = true ∨ isSpaceChar c = true) →
      clean_llm_output l = joinWords (splitWords l)) ∧
    sanitize ("Hello    world  ".toList) = "Hello world".toList := by
  refine ⟨?_, ?_, by decide⟩
  · intro ws hne hws
    have hgood : GoodSplit ws := fun w hw =>
      ⟨(hws w hw).1, fun c hc => word_not_space (alnum_word ((hws w hw).2 c hc))⟩
    have hword : ∀ w ∈ ws, ∀ c ∈ w, isWordChar c = true := fun w hw c hc =>
      alnum_word ((hws w hw).2 c hc)
    have hjne : joinWords ws ≠ [] :=
      joinWords_ne_nil ws hne (fun w hw => (hws w hw).1)
    rw [sanitize, clean_fixed ws hgood hword, if_neg hjne]
  · intro l hl
    by_cases hnil : l = []
    · subst hnil; rfl
    · rw [clean_llm_output, if_neg hnil]
      have hstrip : stripThink l = l := by
        rw [stripThink]
        apply stripThinkF_id
        intro c hc
        rcases hl c hc with h | h
        · exact word_lowerN_ne (alnum_word h)
        · exact space_lowerN_ne h
      have hfilter : removePunct l = l := by
        apply List.filter_eq_self.mpr
        intro c hc
        rcases hl c hc with h | h
        · simp [alnum_word h]
        · simp [h]
      rw [hstrip, hfilter]
      apply pyStrip_joinWords
      intro w hw
      have := splitWordsF_words l.length l le_rfl w hw
      exact ⟨this.1, fun c hc => (this.2 c hc).1⟩

theorem claim_C9_witness :
    sanitize (joinWords [['H', 'i'], ['y', 'o', 'u']]) =
      joinWords [['H', 'i'], ['y', 'o', 'u']] ∧
    clean_llm_output ("a  b".toList) = joinWords (splitWords ("a  b".toList)) :=
  ⟨claim_C9.1 _ (by decide) (by decide), claim_C9.2.1 _ (by decide)⟩

/-- Claim C10: every string the overridden say method forwards to speech
synthesis, the cleaned model output branch included, as well as the
canonical fallback, the canonical override, and on_enter's welcome
message, is a fixed point of clean_llm_output. -/
theorem claim_C10 (l : List Char) :
    clean_llm_output (validateAndSanitize l) = validateAndSanitize l ∧
    clean_llm_output fallbackMsg = fallbackMsg ∧
    clean_llm_output overrideMsg = overrideMsg ∧
    clean_llm_output welcomeMsg = welcomeMsg := by
  refine ⟨?_, clean_fallback, clean_override, clean_welcome⟩
  rw [validateAndSanitize]
  by_cases h : is_chinese_text l = true
  · rw [if_pos h]; exact clean_override
  · rw [if_neg h, sanitize]
    by_cases hc : clean_llm_output l = []
    · rw [if_pos hc]; exact clean_fallback
    · rw [if_neg hc]; exact clean_idem l

end AgentSpec
